import Mathlib

set_option maxRecDepth 40000
set_option maxHeartbeats 1600000

/-!
# Verification of the VM-to-assembly translator

Shallow embedding of `vm_translator.py`: the instruction `Parser`
(comment stripping, tokenisation, classification) and the `CodeWriter`
(stack code generation), together with an operational model of the
target machine (one data register `D`, one address register `A`, a
memory, and a program counter) used to execute the emitted code.
-/

/-! ## Errors -/

/-- Error taxonomy of the translator (Python exceptions). -/
inductive VmErr where
  /-- Python `ValueError` raised by the arithmetic dispatch (InvalidOperator). -/
  | invalidOperator (cmd : String)
  /-- Python `KeyError` on the static segment table (UnknownSegment). -/
  | unknownSegment (seg : String)
  /-- Python `IndexError` when an instruction has too few tokens (InsufficientTokens). -/
  | insufficientTokens
  /-- Python `ValueError` raised by the classifier (MalformedInstruction). -/
  | malformed (tok : List Char)
  /-- Python `ValueError` raised by `advance` past the end (ExhaustedInput). -/
  | exhausted
  deriving DecidableEq, Repr

/-! ## Parser: lines and cleaning

Source lines are modelled as `List Char`.  `Parser.__init__` does
`line.strip().split("//")[0]` and keeps the result when non-empty.
-/

/-- A raw source line. -/
abbrev Line := List Char

/-- Drop leading whitespace (left part of Python `str.strip`). -/
def ltrim (l : Line) : Line := l.dropWhile (fun c => c.isWhitespace)

/-- Drop trailing whitespace (right part of Python `str.strip`). -/
def rtrim (l : Line) : Line := ((l.reverse).dropWhile (fun c => c.isWhitespace)).reverse

/-- Python `str.strip`: drop whitespace at both ends. -/
def trimChars (l : Line) : Line := rtrim (ltrim l)

/-- Is the first character a slash? -/
def slashHead (l : Line) : Bool :=
  match l with
  | c :: _ => c = '/'
  | [] => false

/-- The part of the line before the first `//` occurrence:
Python `s.split("//")[0]`. -/
def strip_comment : Line → Line
  | [] => []
  | c :: cs => if c = '/' ∧ slashHead cs then [] else c :: strip_comment cs

/-- What `Parser.__init__` stores for one raw line:
`line.strip().split("//")[0]`. -/
def clean_line (l : Line) : Line := strip_comment (trimChars l)

/-- The retained-instruction list built by the constructor loop:
clean each line, append it when non-empty. -/
def vm_instructions_of (ls : List Line) : List Line :=
  ls.foldl (fun acc l => if clean_line l ≠ [] then acc ++ [clean_line l] else acc) []

/-! ## Parser: tokenisation and classification -/

/-- Python `str.split()` helper: accumulate the current token (reversed). -/
def splitWsAux (acc : Line) : Line → List Line
  | [] => if acc = [] then [] else [acc.reverse]
  | c :: r =>
    if c.isWhitespace then
      (if acc = [] then [] else [acc.reverse]) ++ splitWsAux [] r
    else
      splitWsAux (c :: acc) r

/-- Python `str.split()`: whitespace-separated tokens, empties dropped. -/
def splitWs (l : Line) : List Line := splitWsAux [] l

/-- The `_CommandType` enum: command classification. -/
inductive CommandType where
  | C_ARITHMETIC | C_PUSH | C_POP | C_LABEL | C_GOTO | C_IF
  | C_FUNCTION | C_RETURN | C_CALL
  deriving DecidableEq, Repr

/-- The nine arithmetic operator tokens. -/
def arithTokens : List Line :=
  ["add".data, "sub".data, "neg".data, "eq".data, "gt".data, "lt".data,
   "and".data, "or".data, "not".data]

/-- Source `_CommandType.from_string`.  The `if-goto` branch is commented out in
the source, so `C_IF` is never produced. -/
def CommandType.from_string (command : Line) : Except VmErr CommandType :=
  if command ∈ arithTokens then .ok .C_ARITHMETIC
  else if command = "push".data then .ok .C_PUSH
  else if command = "pop".data then .ok .C_POP
  else if slashLParen command then .ok .C_LABEL
  else if command = "goto".data then .ok .C_GOTO
  else if command = "function".data then .ok .C_FUNCTION
  else if command = "return".data then .ok .C_RETURN
  else if command = "call".data then .ok .C_CALL
  else .error (.malformed command)
where
  /-- Python `command.startswith("(")`. -/
  slashLParen (l : Line) : Bool :=
    match l with
    | c :: _ => c = '('
    | [] => false

/-- The record returned by `Parser._parse_instruction`. -/
structure Parsed where
  type : CommandType
  arg1 : Line
  arg2 : Option Line
  deriving DecidableEq, Repr

/-- Source `Parser._parse_instruction`: split into tokens, classify the first,
and extract `arg1`/`arg2`.  Out-of-range token accesses (`IndexError`)
are `insufficientTokens`. -/
def parse_instruction (raw : Line) : Except VmErr Parsed :=
  match splitWs raw with
  | [] => .error .insufficientTokens
  | t :: rest =>
    match CommandType.from_string t with
    | .error e => .error e
    | .ok ty =>
      if ty = .C_ARITHMETIC then .ok ⟨ty, t, none⟩
      else
        match rest with
        | a1 :: a2 :: _ => .ok ⟨ty, a1, some a2⟩
        | _ => .error .insufficientTokens

/-! ## Target machine instructions

The CodeWriter emits a fixed repertoire of target instructions as text.
They are modelled structurally; `Instr.render` gives the exact text the
Python code appends.
-/

/-- Jump labels synthesised by the CodeWriter. -/
inductive Lbl where
  /-- Label `LT_TRUE_{n}`. -/
  | ltTrue (n : Nat)
  /-- Label `LT_END_{n}`. -/
  | ltEnd (n : Nat)
  /-- Label `END`. -/
  | endL
  deriving DecidableEq, Repr

/-- The target instructions appearing in the emitted program. -/
inductive Instr where
  /-- an echo comment line (no machine effect) -/
  | comment (s : String)
  /-- Instruction `@n` for a numeric literal. -/
  | atConst (n : Int)
  /-- Instruction `@SP` (the stack-pointer cell, address 0). -/
  | atSP
  /-- Instruction `@L` for a synthesised label. -/
  | atLbl (l : Lbl)
  /-- Pseudo-instruction `(L)` defining a label. -/
  | labelDef (l : Lbl)
  | dEqA      -- D=A
  | dEqM      -- D=M
  | dEqMminusD -- D=M-D
  | aEqM      -- A=M
  | aEqAminus1 -- A=A-1
  | aEqMminus1 -- A=M-1
  | amEqMminus1 -- AM=M-1
  | mEqD      -- M=D
  | mEqMplus1 -- M=M+1
  | mEqMminus1 -- M=M-1
  | mEqMplusD -- M=M+D
  | mEqMminusD -- M=M-D
  | mEqMandD  -- M=M&D
  | mEqMorD   -- M=M|D
  | mEqNegM   -- M=-M
  | mEqNotM   -- M=!M
  | mEqZero   -- M=0
  | mEqNegOne -- M=-1
  | jeq       -- D;JEQ
  | jgt       -- D;JGT
  | jlt       -- D;JLT
  | jmp       -- 0;JMP
  deriving DecidableEq, Repr

/-! ### Decimal rendering of label counters -/

/-- Decimal digits of `n` (big-endian), with explicit fuel so the
definition is structural. -/
def decChars : Nat → Nat → List Char
  | 0, _ => []
  | f + 1, n =>
    if n < 10 then [Nat.digitChar n]
    else decChars f (n / 10) ++ [Nat.digitChar (n % 10)]

/-- Decimal string of a natural number (what Python `format` prints). -/
def natStr (n : Nat) : String := ⟨decChars (n + 1) n⟩

/-- Text of a synthesised label. -/
def renderLbl : Lbl → String
  | .ltTrue n => "LT_TRUE_" ++ natStr n
  | .ltEnd n => "LT_END_" ++ natStr n
  | .endL => "END"

/-- The exact text the Python CodeWriter appends for each instruction. -/
def Instr.render : Instr → String
  | .comment s => s
  | .atConst n => "@" ++ toString n
  | .atSP => "@SP"
  | .atLbl l => "@" ++ renderLbl l
  | .labelDef l => "(" ++ renderLbl l ++ ")"
  | .dEqA => "D=A"
  | .dEqM => "D=M"
  | .dEqMminusD => "D=M-D"
  | .aEqM => "A=M"
  | .aEqAminus1 => "A=A-1"
  | .aEqMminus1 => "A=M-1"
  | .amEqMminus1 => "AM=M-1"
  | .mEqD => "M=D"
  | .mEqMplus1 => "M=M+1"
  | .mEqMminus1 => "M=M-1"
  | .mEqMplusD => "M=M+D"
  | .mEqMminusD => "M=M-D"
  | .mEqMandD => "M=M&D"
  | .mEqMorD => "M=M|D"
  | .mEqNegM => "M=-M"
  | .mEqNotM => "M=!M"
  | .mEqZero => "M=0"
  | .mEqNegOne => "M=-1"
  | .jeq => "D;JEQ"
  | .jgt => "D;JGT"
  | .jlt => "D;JLT"
  | .jmp => "0;JMP"

/-! ## Target machine semantics

State: one address register `A`, one data register `D`, a memory
(integer cells, the stack pointer lives in cell 0), and a program
counter.  Comments and label definitions are no-ops; `@L` resolves a
label to the position of its definition in the program.
-/

/-- Machine state. -/
structure Mach where
  a : Int
  d : Int
  mem : Int → Int
  pc : Nat

/-- Point update of a memory. -/
def memUpd (f : Int → Int) (x v : Int) : Int → Int :=
  fun y => if y = x then v else f y

/-- Position of the definition of label `l` in the program. -/
def findLabel (prog : List Instr) (l : Lbl) : Nat :=
  prog.findIdx (fun i => i = Instr.labelDef l)

/-- One machine step.  Past the end of the program the state is fixed. -/
def Mach.step (prog : List Instr) (m : Mach) : Mach :=
  match prog[m.pc]? with
  | none => m
  | some i =>
    match i with
    | .comment _ => { m with pc := m.pc + 1 }
    | .labelDef _ => { m with pc := m.pc + 1 }
    | .atConst n => { m with a := n, pc := m.pc + 1 }
    | .atSP => { m with a := 0, pc := m.pc + 1 }
    | .atLbl l => { m with a := (findLabel prog l : Int), pc := m.pc + 1 }
    | .dEqA => { m with d := m.a, pc := m.pc + 1 }
    | .dEqM => { m with d := m.mem m.a, pc := m.pc + 1 }
    | .dEqMminusD => { m with d := m.mem m.a - m.d, pc := m.pc + 1 }
    | .aEqM => { m with a := m.mem m.a, pc := m.pc + 1 }
    | .aEqAminus1 => { m with a := m.a - 1, pc := m.pc + 1 }
    | .aEqMminus1 => { m with a := m.mem m.a - 1, pc := m.pc + 1 }
    | .amEqMminus1 =>
      { m with a := m.mem m.a - 1, mem := memUpd m.mem m.a (m.mem m.a - 1),
               pc := m.pc + 1 }
    | .mEqD => { m with mem := memUpd m.mem m.a m.d, pc := m.pc + 1 }
    | .mEqMplus1 => { m with mem := memUpd m.mem m.a (m.mem m.a + 1), pc := m.pc + 1 }
    | .mEqMminus1 => { m with mem := memUpd m.mem m.a (m.mem m.a - 1), pc := m.pc + 1 }
    | .mEqMplusD => { m with mem := memUpd m.mem m.a (m.mem m.a + m.d), pc := m.pc + 1 }
    | .mEqMminusD => { m with mem := memUpd m.mem m.a (m.mem m.a - m.d), pc := m.pc + 1 }
    | .mEqMandD => { m with mem := memUpd m.mem m.a (Int.land (m.mem m.a) m.d), pc := m.pc + 1 }
    | .mEqMorD => { m with mem := memUpd m.mem m.a (Int.lor (m.mem m.a) m.d), pc := m.pc + 1 }
    | .mEqNegM => { m with mem := memUpd m.mem m.a (-(m.mem m.a)), pc := m.pc + 1 }
    | .mEqNotM => { m with mem := memUpd m.mem m.a (Int.not (m.mem m.a)), pc := m.pc + 1 }
    | .mEqZero => { m with mem := memUpd m.mem m.a 0, pc := m.pc + 1 }
    | .mEqNegOne => { m with mem := memUpd m.mem m.a (-1), pc := m.pc + 1 }
    | .jeq => if m.d = 0 then { m with pc := m.a.toNat } else { m with pc := m.pc + 1 }
    | .jgt => if m.d > 0 then { m with pc := m.a.toNat } else { m with pc := m.pc + 1 }
    | .jlt => if m.d < 0 then { m with pc := m.a.toNat } else { m with pc := m.pc + 1 }
    | .jmp => { m with pc := m.a.toNat }

/-- Run `n` machine steps. -/
def Mach.run (prog : List Instr) : Nat → Mach → Mach
  | 0, m => m
  | n + 1, m => Mach.run prog n (m.step prog)

/-! ## CodeWriter -/

/-- The CodeWriter state: the accumulated program (`self.assembly`), the
block under construction (`self._temp_vm_instruction`), the comparison
label counter (`self._lt_counter`) and the output path. -/
structure CodeWriter where
  assembly : List (List Instr)
  temp : List Instr
  lt_counter : Nat
  out_file : String
  deriving Repr

/-- Result of a CodeWriter method: success, or a raised exception
together with the (already mutated) object state at raise time. -/
inductive WRes where
  | ok (w : CodeWriter)
  | err (e : VmErr) (w : CodeWriter)
  deriving Repr

/-- The object state after the call, whether or not it raised. -/
def WRes.state : WRes → CodeWriter
  | .ok w => w
  | .err _ w => w

/-- The static segment table `CodeWriter.default_bases`. -/
def default_bases (seg : String) : Option Int :=
  if seg = "sp" then some 256 else none

/-- The prologue block seeded by `CodeWriter.__init__`. -/
def prologueBlock : List Instr :=
  [.comment "// initialize register values", .atConst 256, .dEqA, .atSP, .mEqD]

/-- Source `CodeWriter.__init__`. -/
def mkCodeWriter (out : String) : CodeWriter :=
  { assembly := [prologueBlock], temp := [], lt_counter := 0, out_file := out }

/-- Source `CodeWriter._pop_to_d`: append `@SP; AM=M-1; D=M` to the block. -/
def pop_to_d (t : List Instr) : List Instr :=
  t ++ [.atSP, .amEqMminus1, .dEqM]

/-- The jump mnemonic chosen by `_generate_comparison`. -/
def jccOf (comparison : String) : Option Instr :=
  if comparison = "eq" then some .jeq
  else if comparison = "gt" then some .jgt
  else if comparison = "lt" then some .jlt
  else none

/-- The instruction sequence `_generate_comparison` appends, for jump
mnemonic `j` and counter value `c`. -/
def comparisonInstrs (j : Instr) (c : Nat) : List Instr :=
  [.atSP, .amEqMminus1, .dEqM,
   .atSP, .amEqMminus1, .dEqMminusD,
   .atLbl (.ltTrue c), j,
   .atSP, .aEqM, .mEqZero,
   .atLbl (.ltEnd c), .jmp,
   .labelDef (.ltTrue c),
   .atSP, .aEqM, .mEqNegOne,
   .labelDef (.ltEnd c),
   .atSP, .mEqMplus1]

/-- Source `CodeWriter._generate_comparison`: raises `ValueError` on an unknown
comparison; otherwise appends the comparison code to the block and
increments the label counter. -/
def generate_comparison (comparison : String) (w : CodeWriter) : WRes :=
  match jccOf comparison with
  | none => .err (.invalidOperator comparison) w
  | some j =>
    .ok { w with temp := w.temp ++ comparisonInstrs j w.lt_counter,
                 lt_counter := w.lt_counter + 1 }

/-- Append the finished block to the program and clear the scratch list
(the common tail of `write_arithmetic`). -/
def flushBlock (w : CodeWriter) (t : List Instr) : WRes :=
  .ok { w with assembly := w.assembly ++ [t], temp := [] }

/-- Source `CodeWriter.write_arithmetic`.  The scratch list is reset on entry;
an unknown operator raises `ValueError` before anything is emitted. -/
def write_arithmetic (command : String) (w0 : CodeWriter) : WRes :=
  let w : CodeWriter := { w0 with temp := [] }
  if command = "add" then
    flushBlock w (pop_to_d [.comment "// add"] ++ [.aEqAminus1, .mEqMplusD])
  else if command = "sub" then
    flushBlock w (pop_to_d [.comment "// sub"] ++ [.aEqAminus1, .mEqMminusD])
  else if command = "neg" then
    flushBlock w [.comment "// neg", .atSP, .aEqMminus1, .mEqNegM]
  else if command = "lt" ∨ command = "gt" ∨ command = "eq" then
    match generate_comparison command w with
    | .ok w1 => flushBlock w1 w1.temp
    | .err e w1 => .err e w1
  else if command = "and" then
    flushBlock w (pop_to_d [.comment "// and"] ++ [.aEqAminus1, .mEqMandD])
  else if command = "or" then
    flushBlock w (pop_to_d [.comment "// or"] ++ [.aEqAminus1, .mEqMorD])
  else if command = "not" then
    flushBlock w [.comment "// not", .atSP, .aEqMminus1, .mEqNotM]
  else
    .err (.invalidOperator command) w

/-- The echo comment heading every push/pop block. -/
def pushPopComment (command : CommandType) (segment : String) (index : Int) : Instr :=
  .comment ("// " ++ (if command = .C_POP then "pop" else "push") ++ " "
            ++ segment ++ " " ++ toString index)

/-- Source `CodeWriter.write_push_pop`.  The `constant` segment inlines the
literal on push and emits nothing on pop; every other segment is
resolved through `default_bases` (a missing entry raises `KeyError`,
with the partially built block still in the scratch list). -/
def write_push_pop (command : CommandType) (segment : String) (index : Int)
    (w : CodeWriter) : WRes :=
  let t0 : List Instr := w.temp ++ [pushPopComment command segment index]
  if segment = "constant" then
    if command = .C_PUSH then
      flushBlock w (t0 ++ [.atConst index, .dEqA, .atSP, .aEqM, .mEqD, .atSP, .mEqMplus1])
    else
      flushBlock w t0
  else
    match default_bases segment with
    | none =>
      if command = .C_PUSH then
        .err (.unknownSegment segment) { w with temp := t0 }
      else
        .err (.unknownSegment segment)
          { w with temp := t0 ++ [.atSP, .mEqMminus1, .atSP, .aEqM, .dEqM] }
    | some b =>
      if command = .C_PUSH then
        flushBlock w (t0 ++ [.atConst (b + index), .aEqM, .dEqM,
                             .atSP, .aEqM, .mEqD, .atSP, .mEqMplus1])
      else
        flushBlock w (t0 ++ [.atSP, .mEqMminus1, .atSP, .aEqM, .dEqM,
                             .atConst (b + index), .mEqD])

/-- The halting epilogue block appended by `close`. -/
def epilogueBlock : List Instr := [.labelDef .endL, .atLbl .endL, .jmp]

/-- Source `CodeWriter.close`: unconditionally append the epilogue to the
program (the file is then opened and the whole program written out). -/
def CodeWriter.close (w : CodeWriter) : CodeWriter :=
  { w with assembly := w.assembly ++ [epilogueBlock] }

/-- The lines written to the output sink by one `close` call. -/
def output_lines (w : CodeWriter) : List String :=
  (CodeWriter.close w).assembly.flatten.map Instr.render

/-! ## Derived definitions used by the verification -/

/-- The spec-side cleaning order for a raw line: remove the trailing
comment first, then trim whitespace. -/
def specCleanLine (l : Line) : Line := trimChars (strip_comment l)

/-- Decimal value of a digit string (left inverse of `decChars`). -/
def charsVal (l : List Char) : Nat :=
  l.foldl (fun a c => 10 * a + (c.toNat - 48)) 0

/-- The comparison relation named by an operator token: `v1` is the
operand pushed first, `v2` the operand pushed second. -/
def cmpHolds (cmp : String) (v1 v2 : Int) : Bool :=
  if cmp = "eq" then v1 = v2
  else if cmp = "gt" then decide (v1 > v2)
  else decide (v1 < v2)

/-- A machine about to execute a block: registers clear, stack pointer
cell holding `sp0`, rest of memory given by `f`. -/
def initMach (f : Int → Int) (sp0 : Int) : Mach :=
  ⟨0, 0, memUpd f 0 sp0, 0⟩

/-- A machine with two operands `v1`, `v2` on top of the stack
(`v1` pushed first) and the stack pointer just above them. -/
def stack2 (f : Int → Int) (sp0 v1 v2 : Int) : Mach :=
  ⟨0, 0, memUpd (memUpd (memUpd f 0 sp0) (sp0 - 2) v1) (sp0 - 1) v2, 0⟩

/-- The all-zero starting machine (memory cleared). -/
def mach0 : Mach := ⟨0, 0, fun _ => 0, 0⟩

/-- The CodeWriter after translating Scenario A
(`push constant 7; push constant 8; add`) and closing. -/
def scenarioA : CodeWriter :=
  ((write_arithmetic "add"
    ((write_push_pop .C_PUSH "constant" 8
      ((write_push_pop .C_PUSH "constant" 7
        (mkCodeWriter "out.asm")).state)).state)).state).close

/-- Label definitions contained in one Block. -/
def labelsIn (b : List Instr) : List Lbl :=
  b.filterMap fun i =>
    match i with
    | .labelDef l => some l
    | _ => none

/-- The pair of label texts defined by a Block, when the Block defines
exactly two labels (as every comparison Block does). -/
def pairOf (b : List Instr) : Option (String × String) :=
  match labelsIn b with
  | [l1, l2] => some (renderLbl l1, renderLbl l2)
  | _ => none

/-- All label pairs appearing in the accumulated program. -/
def generatedPairs (w : CodeWriter) : List (String × String) :=
  w.assembly.filterMap pairOf

/-- Feed a sequence of arithmetic commands to one CodeWriter instance
(the object state survives a raised exception). -/
def writeSeq (cmds : List String) (w : CodeWriter) : CodeWriter :=
  cmds.foldl (fun w c => (write_arithmetic c w).state) w

/-! ## General lemmas about the machine model -/

theorem memUpd_same (f : Int → Int) (x v : Int) : memUpd f x v x = v := by
  simp [memUpd]

theorem memUpd_other (f : Int → Int) (x v y : Int) (h : y ≠ x) : memUpd f x v y = f y := by
  simp [memUpd, h]

theorem findLabel_cons_self (l : List Instr) (lb : Lbl) :
    findLabel (.labelDef lb :: l) lb = 0 := by
  simp [findLabel, List.findIdx_cons]

theorem findLabel_cons_ne (i : Instr) (l : List Instr) (lb : Lbl) (h : i ≠ .labelDef lb) :
    findLabel (i :: l) lb = findLabel l lb + 1 := by
  simp [findLabel, List.findIdx_cons, h]

theorem Mach.run_add (p : List Instr) (a b : Nat) (m : Mach) :
    Mach.run p (a + b) m = Mach.run p b (Mach.run p a m) := by
  induction a generalizing m with
  | zero => rw [Nat.zero_add]; rfl
  | succ a ih =>
    have h : a + 1 + b = (a + b) + 1 := by omega
    rw [h]
    show Mach.run p (a + b) (m.step p) = Mach.run p b (Mach.run p a (m.step p))
    exact ih (m.step p)

theorem Mach.step_halted (p : List Instr) (m : Mach) (h : p.length ≤ m.pc) :
    m.step p = m := by
  unfold Mach.step
  rw [List.getElem?_eq_none h]

theorem Mach.run_halted (p : List Instr) (m : Mach) (h : p.length ≤ m.pc) (n : Nat) :
    Mach.run p n m = m := by
  induction n with
  | zero => rfl
  | succ n ih =>
    show Mach.run p n (m.step p) = m
    rw [Mach.step_halted p m h]
    exact ih

/-! ## C5: unknown arithmetic operator -/

/-- C5: for every token outside the fixed 9-operator set, the arithmetic
handler fails with InvalidOperator (the `ValueError` branch), and the
failure leaves the accumulated assembly program unchanged — no
instruction of the failing call is emitted. -/
theorem c5_invalid_operator (cmd : String) (w : CodeWriter)
    (h : cmd ∉ ["add", "sub", "neg", "eq", "gt", "lt", "and", "or", "not"]) :
    write_arithmetic cmd w = .err (.invalidOperator cmd) { w with temp := [] } ∧
    (write_arithmetic cmd w).state.assembly = w.assembly := by
  have h1 : ¬ cmd = "add" := fun e => h (by simp [e])
  have h2 : ¬ cmd = "sub" := fun e => h (by simp [e])
  have h3 : ¬ cmd = "neg" := fun e => h (by simp [e])
  have h4 : ¬ cmd = "eq" := fun e => h (by simp [e])
  have h5 : ¬ cmd = "gt" := fun e => h (by simp [e])
  have h6 : ¬ cmd = "lt" := fun e => h (by simp [e])
  have h7 : ¬ cmd = "and" := fun e => h (by simp [e])
  have h8 : ¬ cmd = "or" := fun e => h (by simp [e])
  have h9 : ¬ cmd = "not" := fun e => h (by simp [e])
  have he : write_arithmetic cmd w = .err (.invalidOperator cmd) { w with temp := [] } := by
    simp [write_arithmetic, h1, h2, h3, h4, h5, h6, h7, h8, h9]
  exact ⟨he, by rw [he]; rfl⟩

/-- Witness for C5 at the concrete token `"mul"`. -/
theorem c5_invalid_operator_witness :
    write_arithmetic "mul" (mkCodeWriter "out.asm") =
      .err (.invalidOperator "mul") { mkCodeWriter "out.asm" with temp := [] } ∧
    (write_arithmetic "mul" (mkCodeWriter "out.asm")).state.assembly =
      (mkCodeWriter "out.asm").assembly :=
  c5_invalid_operator "mul" (mkCodeWriter "out.asm") (by decide)

/-! ## C6: segment resolution through the static table -/

/-- C6: every push/pop whose segment is not `constant` is resolved
through the static segment table `default_bases`: a name absent from the
table fails with UnknownSegment (`KeyError`), and a name present with
base `b` emits a Block addressing `b + index`. -/
theorem c6_segment_resolution (cmd : CommandType) (seg : String) (idx : Int)
    (w : CodeWriter) (hcmd : cmd = .C_PUSH ∨ cmd = .C_POP) (hseg : seg ≠ "constant") :
    (default_bases seg = none →
      ∃ w', write_push_pop cmd seg idx w = .err (.unknownSegment seg) w') ∧
    (∀ b, default_bases seg = some b →
      ∃ t, write_push_pop cmd seg idx w = .ok { w with assembly := w.assembly ++ [t], temp := [] } ∧
        Instr.atConst (b + idx) ∈ t) := by
  constructor
  · intro hnone
    rcases hcmd with rfl | rfl
    · exact ⟨{ w with temp := w.temp ++ [pushPopComment .C_PUSH seg idx] },
        by simp [write_push_pop, hseg, hnone]⟩
    · exact ⟨{ w with temp := w.temp ++ [pushPopComment .C_POP seg idx,
          .atSP, .mEqMminus1, .atSP, .aEqM, .dEqM] },
        by simp [write_push_pop, hseg, hnone]⟩
  · intro b hb
    rcases hcmd with rfl | rfl
    · refine ⟨w.temp ++ [pushPopComment .C_PUSH seg idx] ++
        [.atConst (b + idx), .aEqM, .dEqM, .atSP, .aEqM, .mEqD, .atSP, .mEqMplus1], ?_, ?_⟩
      · simp [write_push_pop, hseg, hb, flushBlock]
      · simp
    · refine ⟨w.temp ++ [pushPopComment .C_POP seg idx] ++
        [.atSP, .mEqMminus1, .atSP, .aEqM, .dEqM, .atConst (b + idx), .mEqD], ?_, ?_⟩
      · simp [write_push_pop, hseg, hb, flushBlock]
      · simp

/-- Witness for C6: `pop foo 0` hits a name absent from the table and
fails with UnknownSegment; `pop sp 3` resolves to base 256. -/
theorem c6_segment_resolution_witness :
    (∃ w', write_push_pop .C_POP "foo" 0 (mkCodeWriter "out.asm") =
      .err (.unknownSegment "foo") w') ∧
    (∃ t, write_push_pop .C_POP "sp" 3 (mkCodeWriter "out.asm") =
      .ok { mkCodeWriter "out.asm" with
              assembly := (mkCodeWriter "out.asm").assembly ++ [t], temp := [] } ∧
      Instr.atConst (256 + 3) ∈ t) :=
  ⟨(c6_segment_resolution .C_POP "foo" 0 (mkCodeWriter "out.asm") (Or.inr rfl)
      (by decide)).1 rfl,
   (c6_segment_resolution .C_POP "sp" 3 (mkCodeWriter "out.asm") (Or.inr rfl)
      (by decide)).2 256 rfl⟩

/-! ## C10: `pop constant` emits only the echo comment -/

/-- Running a one-comment Block never changes memory. -/
theorem run_comment_mem (s : String) (n : Nat) (m : Mach) :
    (Mach.run [Instr.comment s] n m).mem = m.mem := by
  induction n generalizing m with
  | zero => rfl
  | succ n ih =>
    show (Mach.run [Instr.comment s] n (m.step _)).mem = m.mem
    rw [ih]
    rcases m with ⟨a, d, mem, pc⟩
    cases pc <;> simp [Mach.step]

/-- C10: `pop constant k` does not fail; it appends a Block holding only
the echo comment, and executing that Block changes no memory cell (in
particular not the stack pointer cell). -/
theorem c10_pop_constant (k : Int) (w : CodeWriter) (hw : w.temp = []) :
    write_push_pop .C_POP "constant" k w =
      .ok { w with
              assembly := w.assembly ++ [[.comment ("// pop constant " ++ toString k)]],
              temp := [] } ∧
    ∀ (n : Nat) (m : Mach),
      (Mach.run [Instr.comment ("// pop constant " ++ toString k)] n m).mem = m.mem := by
  constructor
  · unfold write_push_pop
    rw [if_pos rfl, if_neg (by decide)]
    unfold flushBlock
    rw [hw]
    rfl
  · intro n m
    exact run_comment_mem _ n m

/-- Witness for C10 at index 5 on a fresh CodeWriter. -/
theorem c10_pop_constant_witness :
    write_push_pop .C_POP "constant" 5 (mkCodeWriter "out.asm") =
      .ok { mkCodeWriter "out.asm" with
              assembly := (mkCodeWriter "out.asm").assembly ++
                [[.comment ("// pop constant " ++ toString (5 : Int))]],
              temp := [] } ∧
    ∀ (n : Nat) (m : Mach),
      (Mach.run [Instr.comment ("// pop constant " ++ toString (5 : Int))] n m).mem = m.mem :=
  c10_pop_constant 5 (mkCodeWriter "out.asm") rfl

/-! ## C7: a second `close` duplicates the epilogue -/

/-- C7 (refuting the claimed behaviour): calling `close` twice on the
same CodeWriter appends the halting epilogue Block twice — the second
call is neither a no-op nor an error. -/
theorem c7_double_close_duplicates_epilogue :
    (((mkCodeWriter "out.asm").close).close).assembly.count epilogueBlock = 2 ∧
    ((mkCodeWriter "out.asm").close).assembly.count epilogueBlock = 1 := by decide

/-! ## C2: `push constant k` then `pop` into a table segment slot -/

/-- Executing the two Blocks emitted for `push constant k; pop sp i`
stores `k` at `256 + i`, restores the stack pointer cell, and runs off
the end of the code. -/
theorem c2_run_blocks (f : Int → Int) (sp0 k i : Int) (hsp : 256 ≤ sp0) (hi : 0 ≤ i) :
    (Mach.run
      [pushPopComment .C_PUSH "constant" k, .atConst k, .dEqA, .atSP, .aEqM, .mEqD,
       .atSP, .mEqMplus1,
       pushPopComment .C_POP "sp" i, .atSP, .mEqMminus1, .atSP, .aEqM, .dEqM,
       .atConst (256 + i), .mEqD]
      16 (initMach f sp0)).mem (256 + i) = k ∧
    (Mach.run
      [pushPopComment .C_PUSH "constant" k, .atConst k, .dEqA, .atSP, .aEqM, .mEqD,
       .atSP, .mEqMplus1,
       pushPopComment .C_POP "sp" i, .atSP, .mEqMminus1, .atSP, .aEqM, .dEqM,
       .atConst (256 + i), .mEqD]
      16 (initMach f sp0)).mem 0 = sp0 ∧
    (Mach.run
      [pushPopComment .C_PUSH "constant" k, .atConst k, .dEqA, .atSP, .aEqM, .mEqD,
       .atSP, .mEqMplus1,
       pushPopComment .C_POP "sp" i, .atSP, .mEqMminus1, .atSP, .aEqM, .dEqM,
       .atConst (256 + i), .mEqD]
      16 (initMach f sp0)).pc = 16 := by
  have h01 : (0 : Int) ≠ sp0 := by omega
  have h02 : sp0 ≠ (0 : Int) := by omega
  have h03 : (0 : Int) ≠ 256 + i := by omega
  have h04 : 256 + i ≠ (0 : Int) := by omega
  simp [pushPopComment, Mach.run, Mach.step, initMach,
    memUpd_same, memUpd_other, h01, h02, h03, h04, memUpd]

/-- C2: for every integer `k` and every segment name `s` present in the
static table (with base `b`, necessarily 256 for `sp`) and index
`i ≥ 0`, translating `push constant k` immediately followed by
`pop s i` succeeds, and executing the two emitted Blocks from any
machine whose stack pointer cell holds `sp0 ≥ 256` leaves `k` in the
slot `b + i` and restores the stack pointer cell to `sp0`. -/
theorem c2_push_then_pop (s : String) (b : Int) (hs : default_bases s = some b)
    (k i : Int) (hi : 0 ≤ i) (f : Int → Int) (sp0 : Int) (hsp : 256 ≤ sp0)
    (w : CodeWriter) (hw : w.temp = []) :
    ∃ B1 B2 w1 w2,
      write_push_pop .C_PUSH "constant" k w = .ok w1 ∧
      w1.assembly = w.assembly ++ [B1] ∧ w1.temp = [] ∧
      write_push_pop .C_POP s i w1 = .ok w2 ∧
      w2.assembly = w.assembly ++ [B1, B2] ∧
      ∀ n, 16 ≤ n →
        (Mach.run (B1 ++ B2) n (initMach f sp0)).mem (b + i) = k ∧
        (Mach.run (B1 ++ B2) n (initMach f sp0)).mem 0 = sp0 := by
  have hs' : s = "sp" := by
    by_cases h : s = "sp"
    · exact h
    · simp [default_bases, h] at hs
  subst hs'
  have hb : b = 256 := by
    simp [default_bases] at hs
    omega
  subst hb
  refine ⟨[pushPopComment .C_PUSH "constant" k, .atConst k, .dEqA, .atSP, .aEqM, .mEqD,
           .atSP, .mEqMplus1],
          [pushPopComment .C_POP "sp" i, .atSP, .mEqMminus1, .atSP, .aEqM, .dEqM,
           .atConst (256 + i), .mEqD],
          { w with
            assembly := (w.assembly ++
              [[pushPopComment .C_PUSH "constant" k, .atConst k, .dEqA, .atSP, .aEqM, .mEqD,
                .atSP, .mEqMplus1]]),
            temp := [] },
          { w with
            assembly := (w.assembly ++
              [[pushPopComment .C_PUSH "constant" k, .atConst k, .dEqA, .atSP, .aEqM, .mEqD,
                .atSP, .mEqMplus1],
               [pushPopComment .C_POP "sp" i, .atSP, .mEqMminus1, .atSP, .aEqM, .dEqM,
                .atConst (256 + i), .mEqD]]),
            temp := [] },
          ?_, ?_, ?_, ?_, ?_, ?_⟩
  · simp [write_push_pop, flushBlock, hw]
  · rfl
  · rfl
  · simp [write_push_pop, flushBlock, default_bases]
  · simp
  · intro n hn
    obtain ⟨e, rfl⟩ : ∃ e, n = 16 + e := ⟨n - 16, by omega⟩
    simp only [List.cons_append, List.nil_append]
    have hrb := c2_run_blocks f sp0 k i hsp hi
    rw [Mach.run_add]
    rw [Mach.run_halted _ _ (by rw [hrb.2.2]; simp) e]
    exact ⟨hrb.1, hrb.2.1⟩

/-- Witness for C2: `push constant 42; pop sp 1` from a machine with
stack pointer 256. -/
theorem c2_push_then_pop_witness :
    ∃ B1 B2 w1 w2,
      write_push_pop .C_PUSH "constant" 42 (mkCodeWriter "out.asm") = .ok w1 ∧
      w1.assembly = (mkCodeWriter "out.asm").assembly ++ [B1] ∧ w1.temp = [] ∧
      write_push_pop .C_POP "sp" 1 w1 = .ok w2 ∧
      w2.assembly = (mkCodeWriter "out.asm").assembly ++ [B1, B2] ∧
      ∀ n, 16 ≤ n →
        (Mach.run (B1 ++ B2) n (initMach (fun _ => 0) 256)).mem (256 + 1) = 42 ∧
        (Mach.run (B1 ++ B2) n (initMach (fun _ => 0) 256)).mem 0 = 256 :=
  c2_push_then_pop "sp" 256 (by decide) 42 1 (by decide) (fun _ => 0) 256 (by decide)
    (mkCodeWriter "out.asm") rfl

/-! ## C3: comparison operations -/

theorem run_cmp_eq_t (f : Int → Int) (v1 v2 : Int) (c : Nat) (hv : v1 - v2 = 0) :
    (Mach.run (comparisonInstrs .jeq c) 16 (stack2 f 258 v1 v2)).mem 0 = 257 ∧
    (Mach.run (comparisonInstrs .jeq c) 16 (stack2 f 258 v1 v2)).mem 256 = -1 ∧
    (Mach.run (comparisonInstrs .jeq c) 16 (stack2 f 258 v1 v2)).pc = 20 := by
  simp [comparisonInstrs, Mach.run, Mach.step, stack2,
    memUpd_same, memUpd_other, findLabel_cons_self, findLabel_cons_ne, hv, memUpd]

theorem run_cmp_eq_f (f : Int → Int) (v1 v2 : Int) (c : Nat) (hv : ¬ v1 - v2 = 0) :
    (Mach.run (comparisonInstrs .jeq c) 16 (stack2 f 258 v1 v2)).mem 0 = 257 ∧
    (Mach.run (comparisonInstrs .jeq c) 16 (stack2 f 258 v1 v2)).mem 256 = 0 ∧
    (Mach.run (comparisonInstrs .jeq c) 16 (stack2 f 258 v1 v2)).pc = 20 := by
  simp [comparisonInstrs, Mach.run, Mach.step, stack2,
    memUpd_same, memUpd_other, findLabel_cons_self, findLabel_cons_ne, hv, memUpd]

theorem run_cmp_gt_t (f : Int → Int) (v1 v2 : Int) (c : Nat) (hv : v1 - v2 > 0) :
    (Mach.run (comparisonInstrs .jgt c) 16 (stack2 f 258 v1 v2)).mem 0 = 257 ∧
    (Mach.run (comparisonInstrs .jgt c) 16 (stack2 f 258 v1 v2)).mem 256 = -1 ∧
    (Mach.run (comparisonInstrs .jgt c) 16 (stack2 f 258 v1 v2)).pc = 20 := by
  simp [comparisonInstrs, Mach.run, Mach.step, stack2,
    memUpd_same, memUpd_other, findLabel_cons_self, findLabel_cons_ne, hv, memUpd]

theorem run_cmp_gt_f (f : Int → Int) (v1 v2 : Int) (c : Nat) (hv : ¬ v1 - v2 > 0) :
    (Mach.run (comparisonInstrs .jgt c) 16 (stack2 f 258 v1 v2)).mem 0 = 257 ∧
    (Mach.run (comparisonInstrs .jgt c) 16 (stack2 f 258 v1 v2)).mem 256 = 0 ∧
    (Mach.run (comparisonInstrs .jgt c) 16 (stack2 f 258 v1 v2)).pc = 20 := by
  simp [comparisonInstrs, Mach.run, Mach.step, stack2,
    memUpd_same, memUpd_other, findLabel_cons_self, findLabel_cons_ne, hv, memUpd]

theorem run_cmp_lt_t (f : Int → Int) (v1 v2 : Int) (c : Nat) (hv : v1 - v2 < 0) :
    (Mach.run (comparisonInstrs .jlt c) 16 (stack2 f 258 v1 v2)).mem 0 = 257 ∧
    (Mach.run (comparisonInstrs .jlt c) 16 (stack2 f 258 v1 v2)).mem 256 = -1 ∧
    (Mach.run (comparisonInstrs .jlt c) 16 (stack2 f 258 v1 v2)).pc = 20 := by
  simp [comparisonInstrs, Mach.run, Mach.step, stack2,
    memUpd_same, memUpd_other, findLabel_cons_self, findLabel_cons_ne, hv, memUpd]

theorem run_cmp_lt_f (f : Int → Int) (v1 v2 : Int) (c : Nat) (hv : ¬ v1 - v2 < 0) :
    (Mach.run (comparisonInstrs .jlt c) 16 (stack2 f 258 v1 v2)).mem 0 = 257 ∧
    (Mach.run (comparisonInstrs .jlt c) 16 (stack2 f 258 v1 v2)).mem 256 = 0 ∧
    (Mach.run (comparisonInstrs .jlt c) 16 (stack2 f 258 v1 v2)).pc = 20 := by
  simp [comparisonInstrs, Mach.run, Mach.step, stack2,
    memUpd_same, memUpd_other, findLabel_cons_self, findLabel_cons_ne, hv, memUpd]

/-- C3: for every comparison operation (`eq`, `gt`, `lt`) the arithmetic
handler emits one Block (the jump mnemonic given by `jccOf`, labels
seeded by the current counter), and executing that Block on two stack
operands `v1` (pushed first, at 256) and `v2` (pushed second, at 257)
pops both (stack pointer cell 258 becomes 257) and writes exactly the
all-one-bits value `-1` when the comparison of `v1` against `v2` holds
and exactly the all-zero-bits value `0` when it does not — no other
result value is possible. -/
theorem c3_comparison (cmp : String) (hcmp : cmp = "eq" ∨ cmp = "gt" ∨ cmp = "lt")
    (w : CodeWriter) (f : Int → Int) (v1 v2 : Int) :
    ∃ j, jccOf cmp = some j ∧
      write_arithmetic cmp w = .ok { w with
        assembly := (w.assembly ++ [comparisonInstrs j w.lt_counter]),
        temp := [], lt_counter := w.lt_counter + 1 } ∧
      ∀ n, 16 ≤ n →
        (Mach.run (comparisonInstrs j w.lt_counter) n (stack2 f 258 v1 v2)).mem 0 = 257 ∧
        (Mach.run (comparisonInstrs j w.lt_counter) n (stack2 f 258 v1 v2)).mem 256 =
          (if cmpHolds cmp v1 v2 then -1 else 0) := by
  rcases hcmp with rfl | rfl | rfl
  · refine ⟨.jeq, rfl, ?_, ?_⟩
    · simp [write_arithmetic, generate_comparison, jccOf, flushBlock]
    · intro n hn
      obtain ⟨e, rfl⟩ : ∃ e, n = 16 + e := ⟨n - 16, by omega⟩
      rw [Mach.run_add]
      by_cases hv : v1 = v2
      · have hr := run_cmp_eq_t f v1 v2 w.lt_counter (by omega)
        rw [Mach.run_halted _ _ (by rw [hr.2.2]; simp [comparisonInstrs]) e]
        exact ⟨hr.1, by rw [hr.2.1]; simp [cmpHolds, hv]⟩
      · have hr := run_cmp_eq_f f v1 v2 w.lt_counter (fun h => hv (by omega))
        rw [Mach.run_halted _ _ (by rw [hr.2.2]; simp [comparisonInstrs]) e]
        exact ⟨hr.1, by rw [hr.2.1]; simp [cmpHolds, hv]⟩
  · refine ⟨.jgt, rfl, ?_, ?_⟩
    · simp [write_arithmetic, generate_comparison, jccOf, flushBlock]
    · intro n hn
      obtain ⟨e, rfl⟩ : ∃ e, n = 16 + e := ⟨n - 16, by omega⟩
      rw [Mach.run_add]
      by_cases hv : v1 > v2
      · have hr := run_cmp_gt_t f v1 v2 w.lt_counter (by omega)
        rw [Mach.run_halted _ _ (by rw [hr.2.2]; simp [comparisonInstrs]) e]
        exact ⟨hr.1, by rw [hr.2.1]; simp [cmpHolds, hv]⟩
      · have hr := run_cmp_gt_f f v1 v2 w.lt_counter (fun h => hv (by omega))
        rw [Mach.run_halted _ _ (by rw [hr.2.2]; simp [comparisonInstrs]) e]
        exact ⟨hr.1, by rw [hr.2.1]; simp [cmpHolds, hv]⟩
  · refine ⟨.jlt, rfl, ?_, ?_⟩
    · simp [write_arithmetic, generate_comparison, jccOf, flushBlock]
    · intro n hn
      obtain ⟨e, rfl⟩ : ∃ e, n = 16 + e := ⟨n - 16, by omega⟩
      rw [Mach.run_add]
      by_cases hv : v1 < v2
      · have hr := run_cmp_lt_t f v1 v2 w.lt_counter (by omega)
        rw [Mach.run_halted _ _ (by rw [hr.2.2]; simp [comparisonInstrs]) e]
        exact ⟨hr.1, by rw [hr.2.1]; simp [cmpHolds, hv]⟩
      · have hr := run_cmp_lt_f f v1 v2 w.lt_counter (fun h => hv (by omega))
        rw [Mach.run_halted _ _ (by rw [hr.2.2]; simp [comparisonInstrs]) e]
        exact ⟨hr.1, by rw [hr.2.1]; simp [cmpHolds, hv]⟩

/-- Witness for C3 at `lt` with operands 1 and 2 on a fresh CodeWriter. -/
theorem c3_comparison_witness :
    ∃ j, jccOf "lt" = some j ∧
      write_arithmetic "lt" (mkCodeWriter "out.asm") = .ok { mkCodeWriter "out.asm" with
        assembly := ((mkCodeWriter "out.asm").assembly ++
          [comparisonInstrs j (mkCodeWriter "out.asm").lt_counter]),
        temp := [], lt_counter := (mkCodeWriter "out.asm").lt_counter + 1 } ∧
      ∀ n, 16 ≤ n →
        (Mach.run (comparisonInstrs j (mkCodeWriter "out.asm").lt_counter) n
          (stack2 (fun _ => 0) 258 1 2)).mem 0 = 257 ∧
        (Mach.run (comparisonInstrs j (mkCodeWriter "out.asm").lt_counter) n
          (stack2 (fun _ => 0) 258 1 2)).mem 256 =
          (if cmpHolds "lt" 1 2 then -1 else 0) :=
  c3_comparison "lt" (by simp) (mkCodeWriter "out.asm") (fun _ => 0) 1 2

/-! ## C1: Scenario A -/

/-- The full assembly program of Scenario A. -/
def scenarioAProg : List Instr := scenarioA.assembly.flatten

theorem scenarioAProg_eq : scenarioAProg =
    [.comment "// initialize register values", .atConst 256, .dEqA, .atSP, .mEqD,
     .comment "// push constant 7", .atConst 7, .dEqA, .atSP, .aEqM, .mEqD, .atSP, .mEqMplus1,
     .comment "// push constant 8", .atConst 8, .dEqA, .atSP, .aEqM, .mEqD, .atSP, .mEqMplus1,
     .comment "// add", .atSP, .amEqMminus1, .dEqM, .aEqAminus1, .mEqMplusD,
     .labelDef .endL, .atLbl .endL, .jmp] := by decide

/-- Once Scenario A has reached its halting loop, every further step
stays in the loop and preserves the result cells. -/
theorem scenarioA_step_inv (m : Mach)
    (h : (m.pc = 27 ∨ m.pc = 28 ∨ (m.pc = 29 ∧ m.a = 27)) ∧
         m.mem 256 = 15 ∧ m.mem 0 = 257) :
    ((m.step scenarioAProg).pc = 27 ∨ (m.step scenarioAProg).pc = 28 ∨
      ((m.step scenarioAProg).pc = 29 ∧ (m.step scenarioAProg).a = 27)) ∧
    (m.step scenarioAProg).mem 256 = 15 ∧ (m.step scenarioAProg).mem 0 = 257 := by
  obtain ⟨hpc, h1, h2⟩ := h
  rcases hpc with hpc | hpc | ⟨hpc, ha⟩
  · simp [Mach.step, scenarioAProg_eq, hpc, h1, h2]
  · simp [Mach.step, scenarioAProg_eq, hpc, h1, h2,
      findLabel_cons_self, findLabel_cons_ne]
  · simp [Mach.step, scenarioAProg_eq, hpc, ha, h1, h2]

/-- Iterated form of `scenarioA_step_inv`. -/
theorem scenarioA_run_inv (e : Nat) (m : Mach)
    (h : (m.pc = 27 ∨ m.pc = 28 ∨ (m.pc = 29 ∧ m.a = 27)) ∧
         m.mem 256 = 15 ∧ m.mem 0 = 257) :
    ((Mach.run scenarioAProg e m).pc = 27 ∨ (Mach.run scenarioAProg e m).pc = 28 ∨
      ((Mach.run scenarioAProg e m).pc = 29 ∧ (Mach.run scenarioAProg e m).a = 27)) ∧
    (Mach.run scenarioAProg e m).mem 256 = 15 ∧
    (Mach.run scenarioAProg e m).mem 0 = 257 := by
  induction e generalizing m with
  | zero => exact h
  | succ e ih =>
    show _ ∧ _
    exact ih (m.step scenarioAProg) (scenarioA_step_inv m h)

/-- C1 (amended): translating `push constant 7; push constant 8; add`
produces exactly the prologue, the three Blocks and the epilogue, and
executing the full program leaves 15 at address 256 with the stack
pointer cell holding 257 (the stack base is 256, so the single
remaining value sits at 256, not 257). -/
theorem c1_scenario_a_amended (n : Nat) (hn : 40 ≤ n) :
    scenarioA.assembly =
      [[.comment "// initialize register values", .atConst 256, .dEqA, .atSP, .mEqD],
       [.comment "// push constant 7", .atConst 7, .dEqA, .atSP, .aEqM, .mEqD, .atSP, .mEqMplus1],
       [.comment "// push constant 8", .atConst 8, .dEqA, .atSP, .aEqM, .mEqD, .atSP, .mEqMplus1],
       [.comment "// add", .atSP, .amEqMminus1, .dEqM, .aEqAminus1, .mEqMplusD],
       [.labelDef .endL, .atLbl .endL, .jmp]] ∧
    (Mach.run scenarioAProg n mach0).mem 256 = 15 ∧
    (Mach.run scenarioAProg n mach0).mem 0 = 257 := by
  refine ⟨by decide, ?_⟩
  obtain ⟨e, rfl⟩ : ∃ e, n = 40 + e := ⟨n - 40, by omega⟩
  rw [Mach.run_add]
  have h40 : ((Mach.run scenarioAProg 40 mach0).pc = 27 ∨
      (Mach.run scenarioAProg 40 mach0).pc = 28 ∨
      ((Mach.run scenarioAProg 40 mach0).pc = 29 ∧ (Mach.run scenarioAProg 40 mach0).a = 27)) ∧
      (Mach.run scenarioAProg 40 mach0).mem 256 = 15 ∧
      (Mach.run scenarioAProg 40 mach0).mem 0 = 257 := by decide
  exact (scenarioA_run_inv e _ h40).2

/-- Witness for C1 (amended) at 40 steps. -/
theorem c1_scenario_a_amended_witness :
    (Mach.run scenarioAProg 40 mach0).mem 256 = 15 ∧
    (Mach.run scenarioAProg 40 mach0).mem 0 = 257 :=
  (c1_scenario_a_amended 40 (by decide)).2

/-- C1 as stated is false: after Scenario A the value at address 257 is
8 (the overwritten second operand), not 15, and the stack pointer cell
holds 257, not 258. -/
theorem c1_scenario_a_counterexample :
    (Mach.run scenarioAProg 60 mach0).mem 257 = 8 ∧
    (Mach.run scenarioAProg 60 mach0).mem 0 = 257 ∧
    ¬ ((Mach.run scenarioAProg 60 mach0).mem 257 = 15 ∧
       (Mach.run scenarioAProg 60 mach0).mem 0 = 258) := by decide

/-! ## C8: line retention and cleaning -/

theorem rtrim_eq_nil_iff (l : Line) :
    rtrim l = [] ↔ ∀ c ∈ l, c.isWhitespace := by
  simp [rtrim, List.dropWhile_eq_nil_iff]

theorem rtrim_cons_of_sat (c : Char) (r : Line) (hc : c.isWhitespace = false) :
    rtrim (c :: r) = c :: rtrim r := by
  unfold rtrim
  rw [List.reverse_cons, List.dropWhile_append]
  by_cases he : (r.reverse.dropWhile (fun x => x.isWhitespace)).isEmpty
  · rw [if_pos he]
    rw [List.isEmpty_iff] at he
    simp [List.dropWhile_cons, hc, he]
  · rw [if_neg he]
    rw [List.reverse_append]
    rw [List.isEmpty_iff] at he
    simp

theorem rtrim_prefix (l : Line) : rtrim l <+: l := by
  have h : (l.reverse.dropWhile (fun c => c.isWhitespace)) <:+ l.reverse :=
    List.dropWhile_suffix _
  have h2 := List.reverse_prefix.mpr h
  simpa [rtrim] using h2

theorem ltrim_cons_ws (c : Char) (r : Line) (hw : c.isWhitespace = true) :
    ltrim (c :: r) = ltrim r := by
  simp [ltrim, List.dropWhile_cons, hw]

theorem ltrim_cons_sat (c : Char) (r : Line) (hw : c.isWhitespace = false) :
    ltrim (c :: r) = c :: r := by
  simp [ltrim, List.dropWhile_cons, hw]

/-- The retention conditions in the two cleaning orders agree: the line
cleaned the code's way (trim, then cut the comment) is empty exactly
when the line cleaned the spec's way (cut the comment, then trim) is. -/
theorem spec_clean_nil_iff (l : Line) :
    specCleanLine l = [] ↔ clean_line l = [] := by
  unfold specCleanLine clean_line
  induction l with
  | nil => simp [strip_comment, trimChars, ltrim, rtrim]
  | cons c r ih =>
    by_cases hw : c.isWhitespace
    · have hslash : ¬ c = '/' := by
        intro e; subst e; simp at hw
      have h₁ : strip_comment (c :: r) = c :: strip_comment r := by
        simp [strip_comment, hslash]
      have htc : ∀ x : Line, trimChars (c :: x) = trimChars x := fun x => by
        unfold trimChars
        rw [ltrim_cons_ws c x hw]
      rw [h₁, htc, htc]
      exact ih
    · replace hw : c.isWhitespace = false := by simpa using hw
      by_cases hcs : c = '/' ∧ slashHead r
      · obtain ⟨rfl, hs⟩ := hcs
        obtain ⟨d, t, rfl, rfl⟩ : ∃ d t, r = d :: t ∧ d = '/' := by
          cases r with
          | nil => simp [slashHead] at hs
          | cons d t =>
            simp only [slashHead, decide_eq_true_eq] at hs
            exact ⟨d, t, rfl, hs⟩
        constructor
        · intro _
          have h₂ : trimChars ('/' :: '/' :: t) = '/' :: '/' :: rtrim t := by
            unfold trimChars
            rw [ltrim_cons_sat _ _ hw, rtrim_cons_of_sat _ _ hw, rtrim_cons_of_sat _ _ hw]
          rw [h₂]
          simp [strip_comment, slashHead]
        · intro _
          have h₃ : strip_comment ('/' :: '/' :: t) = [] := by
            simp [strip_comment, slashHead]
          rw [h₃]
          simp [trimChars, ltrim, rtrim]
      · have h₄ : strip_comment (c :: r) = c :: strip_comment r := by
          simp only [strip_comment, if_neg hcs]
        have h₅ : trimChars (c :: r) = c :: rtrim r := by
          unfold trimChars
          rw [ltrim_cons_sat _ _ hw, rtrim_cons_of_sat _ _ hw]
        have h₆ : ¬ (c = '/' ∧ slashHead (rtrim r)) := by
          rintro ⟨rfl, hsh⟩
          apply hcs
          refine ⟨rfl, ?_⟩
          rcases hrt : rtrim r with _ | ⟨d, x⟩
          · rw [hrt] at hsh; simp [slashHead] at hsh
          · rw [hrt] at hsh
            simp only [slashHead, decide_eq_true_eq] at hsh
            subst hsh
            obtain ⟨tail, htail⟩ := rtrim_prefix r
            rw [hrt] at htail
            rw [show r = '/' :: (x ++ tail) from by rw [htail.symm]; simp]
            simp [slashHead]
        rw [h₄, h₅]
        constructor
        · intro hh
          exfalso
          have hx : trimChars (c :: strip_comment r) = c :: rtrim (strip_comment r) := by
            unfold trimChars
            rw [ltrim_cons_sat _ _ hw, rtrim_cons_of_sat _ _ hw]
          rw [hx] at hh
          exact List.cons_ne_nil _ _ hh
        · intro hh
          exfalso
          have hx : strip_comment (c :: rtrim r) = c :: strip_comment (rtrim r) := by
            simp only [strip_comment, if_neg h₆]
          rw [hx] at hh
          exact List.cons_ne_nil _ _ hh

/-- The constructor loop in accumulator form. -/
theorem vm_instructions_foldl (ls : List Line) (acc : List Line) :
    ls.foldl (fun acc l => if clean_line l ≠ [] then acc ++ [clean_line l] else acc) acc =
      acc ++ ls.filterMap (fun l => if clean_line l = [] then none else some (clean_line l)) := by
  induction ls generalizing acc with
  | nil => simp
  | cons l ls ih =>
    by_cases hc : clean_line l = []
    · rw [List.foldl_cons, if_neg (fun hne => hne hc)]
      rw [ih acc]
      rw [List.filterMap_cons_none (l := ls) (by simp [hc])]
    · rw [List.foldl_cons, if_pos hc]
      rw [ih (acc ++ [clean_line l])]
      rw [List.filterMap_cons_some (l := ls) (b := clean_line l) (by simp [hc])]
      simp

/-- C8 (amended): a line is retained exactly when it is non-empty after
removing the trailing comment and trimming (the claim's condition), the
retained lines keep their original relative order, and each retained
instruction equals the line trimmed FIRST and comment-stripped SECOND —
so whitespace standing immediately before a removed comment is kept,
unlike the claim's fully-trimmed text. -/
theorem c8_retained_lines (ls : List Line) :
    vm_instructions_of ls =
      ls.filterMap (fun l =>
        if specCleanLine l = [] then none else some (strip_comment (trimChars l))) := by
  unfold vm_instructions_of
  rw [vm_instructions_foldl ls []]
  rw [List.nil_append]
  apply List.filterMap_congr
  intro l _
  by_cases h : clean_line l = []
  · rw [if_pos h, if_pos ((spec_clean_nil_iff l).mpr h)]
  · rw [if_neg h, if_neg (fun hs => h ((spec_clean_nil_iff l).mp hs))]
    rfl

/-- C8 as stated is false on the text of retained instructions: for the
line `add // c` the parser keeps `add ` (trailing space preserved),
which differs from the comment-stripped, whitespace-trimmed text
`add`. -/
theorem c8_retained_lines_counterexample :
    vm_instructions_of ["add // c".data] = ["add ".data] ∧
    specCleanLine ("add // c".data) = "add".data ∧
    vm_instructions_of ["add // c".data] ≠ [specCleanLine ("add // c".data)] := by decide

/-! ## C9: argument extraction -/

/-- C9: a recognized instruction is parsed from its whitespace tokens:
an arithmetic command takes the operator token itself as `arg1` and no
`arg2`; every other recognized command takes the second token as `arg1`
and the third as `arg2`, and fails with InsufficientTokens
(`IndexError`) when fewer than three tokens are present. -/
theorem c9_parse_tokens (raw : Line) (t : Line) (rest : List Line)
    (hsplit : splitWs raw = t :: rest) (ty : CommandType)
    (hty : CommandType.from_string t = .ok ty) :
    (ty = .C_ARITHMETIC → parse_instruction raw = .ok ⟨ty, t, none⟩) ∧
    (ty ≠ .C_ARITHMETIC →
      (∀ a1 a2 more, rest = a1 :: a2 :: more →
        parse_instruction raw = .ok ⟨ty, a1, some a2⟩) ∧
      (rest.length < 2 → parse_instruction raw = .error .insufficientTokens)) := by
  constructor
  · intro h
    subst h
    simp [parse_instruction, hsplit, hty]
  · intro h
    constructor
    · intro a1 a2 more hr
      subst hr
      simp [parse_instruction, hsplit, hty, h]
    · intro hlen
      rcases rest with _ | ⟨a1, _ | ⟨a2, more⟩⟩
      · simp [parse_instruction, hsplit, hty, h]
      · simp [parse_instruction, hsplit, hty, h]
      · simp only [List.length_cons] at hlen
        omega

/-- Witness for C9 on `push constant 7` and on `goto foo` (too few
tokens for a non-arithmetic command). -/
theorem c9_parse_tokens_witness :
    parse_instruction "push constant 7".data =
      .ok ⟨.C_PUSH, "constant".data, some "7".data⟩ ∧
    parse_instruction "goto foo".data = .error .insufficientTokens :=
  ⟨((c9_parse_tokens "push constant 7".data "push".data ["constant".data, "7".data]
      (by decide) .C_PUSH rfl).2 (by decide)).1 "constant".data "7".data [] rfl,
   ((c9_parse_tokens "goto foo".data "goto".data ["foo".data]
      (by decide) .C_GOTO rfl).2 (by decide)).2 (by decide)⟩

/-! ## C4: uniqueness of comparison label pairs -/

theorem charsVal_append_digit (l : List Char) (c : Char) :
    charsVal (l ++ [c]) = 10 * charsVal l + (c.toNat - 48) := by
  simp [charsVal, List.foldl_append]

theorem digitChar_toNat (d : Nat) (hd : d < 10) : (Nat.digitChar d).toNat - 48 = d := by
  interval_cases d <;> rfl

theorem charsVal_decChars (f n : Nat) (h : n < 10 ^ f) :
    charsVal (decChars f n) = n := by
  induction f generalizing n with
  | zero =>
    have hn : n = 0 := by simpa using h
    subst hn
    rfl
  | succ f ih =>
    by_cases hn : n < 10
    · rw [decChars, if_pos hn]
      have : charsVal [Nat.digitChar n] = (Nat.digitChar n).toNat - 48 := by
        simp [charsVal]
      rw [this, digitChar_toNat n hn]
    · rw [decChars, if_neg hn]
      rw [charsVal_append_digit]
      rw [ih (n / 10) (Nat.div_lt_of_lt_mul (by rw [← pow_succ']; exact h))]
      rw [digitChar_toNat (n % 10) (Nat.mod_lt _ (by norm_num))]
      omega

theorem natStr_inj (a b : Nat) (h : natStr a = natStr b) : a = b := by
  have ha : a < 10 ^ (a + 1) :=
    lt_trans (Nat.lt_pow_self (by norm_num) a) (Nat.pow_lt_pow_succ (by norm_num))
  have hb : b < 10 ^ (b + 1) :=
    lt_trans (Nat.lt_pow_self (by norm_num) b) (Nat.pow_lt_pow_succ (by norm_num))
  have hd : decChars (a + 1) a = decChars (b + 1) b := congrArg String.data h
  calc a = charsVal (decChars (a + 1) a) := (charsVal_decChars _ _ ha).symm
    _ = charsVal (decChars (b + 1) b) := by rw [hd]
    _ = b := charsVal_decChars _ _ hb

theorem ltTrue_text_inj (a b : Nat)
    (h : "LT_TRUE_" ++ natStr a = "LT_TRUE_" ++ natStr b) : a = b := by
  apply natStr_inj
  apply String.ext
  have hd := congrArg String.data h
  rw [String.data_append, String.data_append] at hd
  exact List.append_cancel_left hd

theorem pairOf_comparison (j : Instr) (c : Nat)
    (hj : j = .jeq ∨ j = .jgt ∨ j = .jlt) :
    pairOf (comparisonInstrs j c) =
      some ("LT_TRUE_" ++ natStr c, "LT_END_" ++ natStr c) := by
  rcases hj with rfl | rfl | rfl <;>
    simp [pairOf, labelsIn, comparisonInstrs, List.filterMap_cons, renderLbl]

/-- For a comparison token, `write_arithmetic` leaves the object with
one appended comparison Block and the counter incremented by one. -/
theorem write_arithmetic_cmp_state (cmp : String) (w : CodeWriter)
    (h : cmp = "eq" ∨ cmp = "gt" ∨ cmp = "lt") :
    ∃ j, jccOf cmp = some j ∧ (j = .jeq ∨ j = .jgt ∨ j = .jlt) ∧
      (write_arithmetic cmp w).state =
        { w with assembly := (w.assembly ++ [comparisonInstrs j w.lt_counter]),
                 temp := [], lt_counter := w.lt_counter + 1 } := by
  rcases h with rfl | rfl | rfl
  · exact ⟨.jeq, rfl, Or.inl rfl,
      by simp [write_arithmetic, generate_comparison, jccOf, flushBlock, WRes.state]⟩
  · exact ⟨.jgt, rfl, Or.inr (Or.inl rfl),
      by simp [write_arithmetic, generate_comparison, jccOf, flushBlock, WRes.state]⟩
  · exact ⟨.jlt, rfl, Or.inr (Or.inr rfl),
      by simp [write_arithmetic, generate_comparison, jccOf, flushBlock, WRes.state]⟩

theorem generatedPairs_append_block (w w' : CodeWriter) (b : List Instr)
    (h : w'.assembly = w.assembly ++ [b]) :
    generatedPairs w' = generatedPairs w ++ (pairOf b).toList := by
  cases hp : pairOf b <;>
    simp [generatedPairs, h, List.filterMap_append, List.filterMap_cons, hp]

/-- Counter increase and generated label pairs of a sequence of
comparison commands fed to one CodeWriter. -/
theorem write_seq_pairs (cmds : List String) (w : CodeWriter)
    (h : ∀ c ∈ cmds, c = "eq" ∨ c = "gt" ∨ c = "lt") :
    (writeSeq cmds w).lt_counter = w.lt_counter + cmds.length ∧
    generatedPairs (writeSeq cmds w) =
      generatedPairs w ++ (List.range cmds.length).map
        (fun i => ("LT_TRUE_" ++ natStr (w.lt_counter + i),
                   "LT_END_" ++ natStr (w.lt_counter + i))) := by
  induction cmds generalizing w with
  | nil => simp [writeSeq]
  | cons c cmds ih =>
    obtain ⟨j, hj, hj3, hst⟩ := write_arithmetic_cmp_state c w (h c (by simp))
    have hstep : writeSeq (c :: cmds) w = writeSeq cmds ((write_arithmetic c w).state) := by
      simp [writeSeq]
    rw [hstep, hst]
    have hW := ih { w with assembly := (w.assembly ++ [comparisonInstrs j w.lt_counter]),
                           temp := [], lt_counter := w.lt_counter + 1 }
      (fun c hc => h c (by simp [hc]))
    refine ⟨?_, ?_⟩
    · rw [hW.1]
      simp
      omega
    · rw [hW.2]
      rw [generatedPairs_append_block w
        { w with assembly := (w.assembly ++ [comparisonInstrs j w.lt_counter]),
                 temp := [], lt_counter := w.lt_counter + 1 }
        (comparisonInstrs j w.lt_counter) rfl]
      rw [pairOf_comparison j w.lt_counter hj3]
      rw [List.append_assoc]
      congr 1
      have hr : (List.range (cmds.length + 1)).map
          (fun i => (("LT_TRUE_" ++ natStr (w.lt_counter + i)),
                     ("LT_END_" ++ natStr (w.lt_counter + i)))) =
          ("LT_TRUE_" ++ natStr w.lt_counter, "LT_END_" ++ natStr w.lt_counter) ::
          (List.range cmds.length).map
            (fun i => (("LT_TRUE_" ++ natStr (w.lt_counter + (i + 1))),
                       ("LT_END_" ++ natStr (w.lt_counter + (i + 1))))) := by
        rw [List.range_succ_eq_map, List.map_cons, List.map_map]
        simp [Function.comp]
      rw [List.length_cons, hr]
      simp only [Option.toList_some, List.singleton_append]
      congr 1
      apply List.map_congr_left
      intro i _
      have : w.lt_counter + 1 + i = w.lt_counter + (i + 1) := by omega
      rw [this]

/-- C4: feeding any sequence of n ≥ 2 comparison commands to one fresh
CodeWriter instance increments the label counter exactly once per call
(so after j calls it equals j, strictly increasing), and the generated
label pairs are `(LT_TRUE_i, LT_END_i)` for `i = 0 .. n-1` — no two
pairs anywhere in the output program are textually equal. -/
theorem c4_label_pairs (cmds : List String) (hn : 2 ≤ cmds.length)
    (h : ∀ c ∈ cmds, c = "eq" ∨ c = "gt" ∨ c = "lt") (o : String) :
    (∀ jj, jj ≤ cmds.length →
      (writeSeq (cmds.take jj) (mkCodeWriter o)).lt_counter = jj) ∧
    generatedPairs (writeSeq cmds (mkCodeWriter o)) =
      (List.range cmds.length).map
        (fun i => ("LT_TRUE_" ++ natStr i, "LT_END_" ++ natStr i)) ∧
    (generatedPairs (writeSeq cmds (mkCodeWriter o))).Pairwise (· ≠ ·) := by
  have hbase : generatedPairs (mkCodeWriter o) = [] := by
    simp [generatedPairs, mkCodeWriter, pairOf, labelsIn, prologueBlock, List.filterMap_cons]
  have hcnt : (mkCodeWriter o).lt_counter = 0 := rfl
  have hfull := write_seq_pairs cmds (mkCodeWriter o) h
  have hpairs : generatedPairs (writeSeq cmds (mkCodeWriter o)) =
      (List.range cmds.length).map
        (fun i => ("LT_TRUE_" ++ natStr i, "LT_END_" ++ natStr i)) := by
    rw [hfull.2, hbase, hcnt]
    simp
  refine ⟨?_, hpairs, ?_⟩
  · intro jj hjj
    have ht := (write_seq_pairs (cmds.take jj) (mkCodeWriter o)
      (fun c hc => h c (List.mem_of_mem_take hc))).1
    rw [ht, hcnt, List.length_take]
    omega
  · rw [hpairs, List.pairwise_map]
    refine (List.nodup_range cmds.length).imp ?_
    intro a b hab heq
    exact hab (ltTrue_text_inj a b (congrArg Prod.fst heq))

/-- Witness for C4 on the two-comparison sequence `eq; lt`. -/
theorem c4_label_pairs_witness :
    (∀ jj, jj ≤ 2 →
      (writeSeq (["eq", "lt"].take jj) (mkCodeWriter "out.asm")).lt_counter = jj) ∧
    generatedPairs (writeSeq ["eq", "lt"] (mkCodeWriter "out.asm")) =
      (List.range 2).map
        (fun i => ("LT_TRUE_" ++ natStr i, "LT_END_" ++ natStr i)) ∧
    (generatedPairs (writeSeq ["eq", "lt"] (mkCodeWriter "out.asm"))).Pairwise (· ≠ ·) :=
  c4_label_pairs ["eq", "lt"] (by decide) (by decide) "out.asm"
